import Mathlib

/-!
Shallow embedding of `deleted_libraries.py`, a single-file scanner that
counts running processes which still map shared libraries whose backing
files were deleted.

Python dictionaries are modelled as insertion-ordered association lists
(`List (String × _)`): lookup and in-place update act on the first entry
with the given key, and a fresh key is appended at the end, matching
CPython dict semantics.  Machine-level details (bytes of `/proc`) are
abstracted: each process contributes the list of lines of its maps file,
where a line either decodes to a `String` or fails to decode.
-/

namespace DeletedLibraries

/-- Python `pat in s` substring test, on the character list of `s`:
`listStartsWith pat cs` checks that `pat` is an initial segment of `cs`. -/
def listStartsWith : List Char → List Char → Bool
  | [], _ => true
  | _ :: _, [] => false
  | p :: ps, c :: cs => p == c && listStartsWith ps cs

/-- Substring occurrence of `pat` anywhere in `cs`. -/
def containsList (pat : List Char) : List Char → Bool
  | [] => listStartsWith pat []
  | c :: cs => listStartsWith pat (c :: cs) || containsList pat cs

/-- Python `pat in s` for strings. -/
def pyIn (pat s : String) : Bool := containsList pat.data s.data

/-- Python `str.split()` with no separator: split on runs of whitespace,
discarding empty tokens.  `cur` accumulates the current token reversed.
`.strip()` before `.split()` in the source is absorbed: splitting on
whitespace runs already ignores leading and trailing whitespace. -/
def splitWsAux (cs : List Char) (cur : List Char) : List String :=
  match cs with
  | [] => if cur.isEmpty then [] else [String.mk cur.reverse]
  | c :: rest =>
      if c.isWhitespace then
        if cur.isEmpty then splitWsAux rest []
        else String.mk cur.reverse :: splitWsAux rest []
      else splitWsAux rest (c :: cur)

/-- `line.decode().strip().split()` of the source, at the string level. -/
def pySplit (s : String) : List String := splitWsAux s.data []

/-- First-occurrence lookup in an association list (Python `d[k]` / `k in d`). -/
def lookupA {β : Type} (l : List (String × β)) (k : String) : Option β :=
  match l with
  | [] => none
  | e :: rest => if e.1 = k then some e.2 else lookupA rest k

/-- Python `k in d`. -/
def containsKey {β : Type} (l : List (String × β)) (k : String) : Bool :=
  (lookupA l k).isSome

/-- Integer-dict read with `defaultdict(int)` semantics: missing keys read 0. -/
def getD0 (l : List (String × Nat)) (k : String) : Nat :=
  (lookupA l k).getD 0

/-- Python `d.setdefault(k, 0); d[k] += 1` on an int dict: bump the first
entry with key `k`, or append `(k, 1)` if `k` is unseen. -/
def incr (d : List (String × Nat)) (k : String) : List (String × Nat) :=
  match d with
  | [] => [(k, 1)]
  | e :: rest => if e.1 = k then (e.1, e.2 + 1) :: rest else e :: incr rest k

/-- Update the value of the first entry with key `path` (Python mutates
`d[path]` in place). -/
def updateAt (agg : List (String × List (String × Nat))) (path : String)
    (f : List (String × Nat) → List (String × Nat)) :
    List (String × List (String × Nat)) :=
  match agg with
  | [] => []
  | e :: rest => if e.1 = path then (e.1, f e.2) :: rest else e :: updateAt rest path f

/-- `processes_linking_deleted_libraries` as built by the scan: every value is
a per-library int dict. -/
abbrev ProcAgg := List (String × List (String × Nat))

/-- A value of the per-process aggregate as seen by
`count_processes_per_library`, whose signature is `Dict[str, Dict[str, Any]]`
and which guards with `isinstance(value, dict)`: either a real per-library
dict or some non-dict Python value. -/
inductive PLValue where
  | dict (d : List (String × Nat))
  | nonDict
deriving DecidableEq

/-- The loose aggregate type accepted by `count_processes_per_library`. -/
abbrev Aggregate := List (String × PLValue)

/-- The aggregate built by the scan, viewed at the loose type. -/
def toLoose (agg : ProcAgg) : Aggregate := agg.map (fun e => (e.1, PLValue.dict e.2))

/-- Direct translation of `process_maps_entry(path, line_parts, d)`:
ignore lines whose field count is not 7; otherwise, when field 5 (the path)
contains `/lib/` and field 6 (the annotation) contains `(deleted)`,
install an empty dict for `path` if absent and bump its count for the
library.  -/
def process_maps_entry (path : String) (line_parts : List String)
    (agg : ProcAgg) : ProcAgg :=
  if line_parts.length ≠ 7 then agg
  else
    let library := line_parts.getD 5 ""
    let comment := line_parts.getD 6 ""
    if pyIn "/lib/" library && pyIn "(deleted)" comment then
      let agg1 := if containsKey agg path then agg else agg ++ [(path, [])]
      updateAt agg1 path (fun d => incr d library)
    else agg

/-- Direct translation of `count_processes_per_library`: for each process
entry whose value is a dict, bump the output count of every library key by
one; non-dict values are skipped. -/
def count_processes_per_library (agg : Aggregate) : List (String × Nat) :=
  agg.foldl
    (fun acc e =>
      match e.2 with
      | PLValue.dict d => d.foldl (fun a le => incr a le.1) acc
      | PLValue.nonDict => acc)
    []

/-- One maps-file line as fed to the loop body: either it decoded to a
string, or `line.decode()` raises `UnicodeDecodeError` whose message
`detail` is produced by the codec from the bytes alone. -/
inductive Line where
  | ok (s : String)
  | undecodable (detail : String)
deriving DecidableEq

/-- Result of `open(path, "rb")` and the ensuing read for one enumerated
maps file: the list of its lines, or an `OSError` with the given errno. -/
inductive OpenResult where
  | opened (lines : List Line)
  | openError (errnoVal : Nat)
deriving DecidableEq

/-- errno.ENOENT. -/
def ENOENT : Nat := 2

/-- How a run of the program ends: normal value, `sys.exit(msg)` (message
printed, non-zero status), or an uncaught exception (traceback with the
exception message, non-zero status).  In the last two cases nothing is
printed to stdout, so no metrics document is emitted. -/
inductive Outcome (α : Type) where
  | done (a : α)
  | exited (msg : String)
  | raised (msg : String)
deriving DecidableEq

/-- The per-process read loop: feed each decoded line through
`process_maps_entry`; an undecodable line raises `UnicodeDecodeError`,
which is not an `EnvironmentError`/`PermissionError` and therefore
propagates uncaught out of the `try`. -/
def readMapsLines (path : String) (lines : List Line) (agg : ProcAgg) :
    Outcome ProcAgg :=
  match lines with
  | [] => Outcome.done agg
  | Line.ok s :: rest =>
      readMapsLines path rest (process_maps_entry path (pySplit s) agg)
  | Line.undecodable detail :: _ =>
      Outcome.raised ("UnicodeDecodeError: " ++ detail)

/-- The scan loop of `main` over the enumerated maps files, threading the
aggregate: an open error with errno ≠ ENOENT hits
`sys.exit(f"Failed to open file: {path}")`; errno = ENOENT is swallowed
and the process skipped. -/
def scanFrom (procs : List (String × OpenResult)) (agg : ProcAgg) :
    Outcome ProcAgg :=
  match procs with
  | [] => Outcome.done agg
  | (path, OpenResult.openError e) :: rest =>
      if e ≠ ENOENT then Outcome.exited ("Failed to open file: " ++ path)
      else scanFrom rest agg
  | (path, OpenResult.opened lines) :: rest =>
      match readMapsLines path lines agg with
      | Outcome.done agg2 => scanFrom rest agg2
      | Outcome.exited m => Outcome.exited m
      | Outcome.raised m => Outcome.raised m

/-- The whole scan, starting from the empty aggregate. -/
def scan_all_processes (procs : List (String × OpenResult)) : Outcome ProcAgg :=
  scanFrom procs []

/-- `main` up to the production of `num_processes_per_library` (the data of
the metrics document); label splitting and exposition formatting are the
external collaborator. -/
def main_run (procs : List (String × OpenResult)) :
    Outcome (List (String × Nat)) :=
  match scan_all_processes procs with
  | Outcome.done agg => Outcome.done (count_processes_per_library (toLoose agg))
  | Outcome.exited m => Outcome.exited m
  | Outcome.raised m => Outcome.raised m

/-- Well-formedness inherited from Python dicts: the key list of every
per-library dict value has no duplicates. -/
def wfInner (agg : Aggregate) : Bool :=
  agg.all (fun e =>
    match e.2 with
    | PLValue.dict d => decide (d.map Prod.fst).Nodup
    | PLValue.nonDict => true)

/-- Does this aggregate entry have `lib` among its per-library keys
(non-dict values have no keys)? -/
def entryHits (e : String × PLValue) (lib : String) : Bool :=
  match e.2 with
  | PLValue.dict d => containsKey d lib
  | PLValue.nonDict => false

/-- Nested read: the count recorded for `lib` under process `path`
(0 when absent, matching the defaultdict view). -/
def procLibCount (agg : ProcAgg) (path lib : String) : Nat :=
  match lookupA agg path with
  | some d => getD0 d lib
  | none => 0

/-- State-passing view of one call of `count_processes_per_library`: the
function body reads its argument only through `.items()` iteration and
assigns only into the freshly created local defaultdict, so the post-call
state of the argument is the argument itself. -/
def count_processes_per_library_call (agg : Aggregate) :
    (List (String × Nat)) × Aggregate :=
  (count_processes_per_library agg, agg)

/-! Helper lemmas about the association-list dictionary operations. -/

theorem getD0_incr_self (d : List (String × Nat)) (k : String) :
    getD0 (incr d k) k = getD0 d k + 1 := by
  induction d with
  | nil => simp [incr, getD0, lookupA]
  | cons e rest ih =>
      by_cases h : e.1 = k
      · simp [incr, h, getD0, lookupA]
      · simp only [incr, if_neg h, getD0, lookupA]
        exact ih

theorem getD0_incr_ne (d : List (String × Nat)) (k k' : String) (h : k' ≠ k) :
    getD0 (incr d k) k' = getD0 d k' := by
  induction d with
  | nil =>
      simp only [incr, getD0, lookupA]
      rw [if_neg (fun hh => h hh.symm)]
  | cons e rest ih =>
      by_cases he : e.1 = k
      · have hne : ¬ e.1 = k' := fun hh => h (hh ▸ he)
        simp only [incr, if_pos he, getD0, lookupA]
        rw [if_neg hne, if_neg hne]
      · by_cases he' : e.1 = k'
        · simp only [incr, if_neg he, getD0, lookupA]
          rw [if_pos he', if_pos he']
        · simp only [incr, if_neg he, getD0, lookupA]
          rw [if_neg he', if_neg he']
          exact ih

theorem containsKey_iff_mem_keys {β : Type} (d : List (String × β)) (k : String) :
    containsKey d k = true ↔ k ∈ d.map Prod.fst := by
  induction d with
  | nil => simp [containsKey, lookupA]
  | cons e rest ih =>
      simp only [containsKey, lookupA, List.map_cons, List.mem_cons]
      by_cases h : e.1 = k
      · simp [h]
      · rw [if_neg h]
        simp only [containsKey] at ih
        rw [ih]
        constructor
        · exact fun hm => Or.inr hm
        · rintro (hh | hm)
          · exact absurd hh.symm h
          · exact hm

theorem getD0_foldl_incr (d : List (String × Nat)) (acc : List (String × Nat))
    (L : String) :
    getD0 (d.foldl (fun a le => incr a le.1) acc) L
      = getD0 acc L + (d.map Prod.fst).count L := by
  induction d generalizing acc with
  | nil => simp
  | cons e rest ih =>
      simp only [List.foldl_cons, List.map_cons]
      rw [ih]
      by_cases h : e.1 = L
      · rw [h, getD0_incr_self, List.count_cons]
        simp only [beq_self_eq_true, if_true]
        omega
      · rw [getD0_incr_ne _ _ _ (fun hh => h hh.symm), List.count_cons]
        have hne : (e.1 == L) = false := by
          simp only [beq_eq_false_iff_ne, ne_eq]
          exact h
        rw [hne]
        simp

theorem all_of_perm {α : Type} {p : α → Bool} {l1 l2 : List α}
    (h : l1.Perm l2) : l1.all p = l2.all p := by
  rw [Bool.eq_iff_iff, List.all_eq_true, List.all_eq_true]
  exact ⟨fun hx x hm => hx x (h.mem_iff.mpr hm),
         fun hx x hm => hx x (h.mem_iff.mp hm)⟩

theorem wfInner_cons {e : String × PLValue} {rest : Aggregate}
    (h : wfInner (e :: rest) = true) :
    wfInner rest = true ∧
      (∀ d, e.2 = PLValue.dict d → (d.map Prod.fst).Nodup) := by
  unfold wfInner at h ⊢
  rw [List.all_cons, Bool.and_eq_true] at h
  refine ⟨h.2, fun d hd => ?_⟩
  have := h.1
  rw [hd] at this
  simpa using this

theorem count_foldl_getD0 (agg : Aggregate) (acc : List (String × Nat))
    (L : String) (hwf : wfInner agg = true) :
    getD0 (agg.foldl
      (fun acc e =>
        match e.2 with
        | PLValue.dict d => d.foldl (fun a le => incr a le.1) acc
        | PLValue.nonDict => acc) acc) L
      = getD0 acc L + agg.countP (fun e => entryHits e L) := by
  induction agg generalizing acc with
  | nil => simp
  | cons e rest ih =>
      obtain ⟨hrest, hnd⟩ := wfInner_cons hwf
      obtain ⟨p, v⟩ := e
      cases v with
      | dict d =>
          simp only [List.foldl_cons, List.countP_cons]
          rw [ih _ hrest, getD0_foldl_incr]
          have hnodup : (d.map Prod.fst).Nodup := hnd d rfl
          have hcount : (d.map Prod.fst).count L
              = if L ∈ d.map Prod.fst then 1 else 0 :=
            List.count_eq_of_nodup hnodup
          have hhits : entryHits (p, PLValue.dict d) L = containsKey d L := rfl
          by_cases hmem : L ∈ d.map Prod.fst
          · rw [hcount, if_pos hmem, hhits,
              (containsKey_iff_mem_keys d L).mpr hmem]
            simp only [if_true]
            omega
          · rw [hcount, if_neg hmem, hhits]
            have hck : containsKey d L = false := by
              rw [← Bool.not_eq_true]
              exact fun hc => hmem ((containsKey_iff_mem_keys d L).mp hc)
            rw [hck]
            simp only [Bool.false_eq_true, if_false]
            omega
      | nonDict =>
          simp only [List.foldl_cons, List.countP_cons]
          rw [ih _ hrest]
          simp [entryHits]

theorem count_getD0_eq_countP (agg : Aggregate) (L : String)
    (hwf : wfInner agg = true) :
    getD0 (count_processes_per_library agg) L
      = agg.countP (fun e => entryHits e L) := by
  have h := count_foldl_getD0 agg [] L hwf
  simpa [count_processes_per_library, getD0, lookupA] using h

/-! Claim theorems. -/

/-- C1: for every per-process aggregate (with Python-dict well-formed
per-library values) and every library path `L`, the count derived by
`count_processes_per_library` for `L` equals the number of process entries
whose per-library mapping contains `L` as a key — each process contributes
exactly 1 regardless of the multiplicity recorded inside it. -/
theorem C1_count_per_library_eq_processes_containing (agg : Aggregate)
    (L : String) (hwf : wfInner agg = true) :
    getD0 (count_processes_per_library agg) L
      = agg.countP (fun e => entryHits e L) :=
  count_getD0_eq_countP agg L hwf

/-- Witness for C1: three processes, the library hit by two of them, the
first with multiplicity 2; the derived count is the countP, namely 2. -/
theorem C1_count_per_library_eq_processes_containing_witness :
    wfInner
        [("/proc/101/maps", PLValue.dict [("/lib/libbar.so", 2)]),
         ("/proc/102/maps", PLValue.dict
            [("/lib/libbar.so", 1), ("/lib/x.so", 2)]),
         ("/proc/103/maps", PLValue.dict [("/lib/x.so", 1)])] = true ∧
      getD0 (count_processes_per_library
        [("/proc/101/maps", PLValue.dict [("/lib/libbar.so", 2)]),
         ("/proc/102/maps", PLValue.dict
            [("/lib/libbar.so", 1), ("/lib/x.so", 2)]),
         ("/proc/103/maps", PLValue.dict [("/lib/x.so", 1)])]) "/lib/libbar.so"
        = List.countP (fun e => entryHits e "/lib/libbar.so")
            [("/proc/101/maps", PLValue.dict [("/lib/libbar.so", 2)]),
             ("/proc/102/maps", PLValue.dict
                [("/lib/libbar.so", 1), ("/lib/x.so", 2)]),
             ("/proc/103/maps", PLValue.dict [("/lib/x.so", 1)])] ∧
      List.countP (fun e => entryHits e "/lib/libbar.so")
            [("/proc/101/maps", PLValue.dict [("/lib/libbar.so", 2)]),
             ("/proc/102/maps", PLValue.dict
                [("/lib/libbar.so", 1), ("/lib/x.so", 2)]),
             ("/proc/103/maps", PLValue.dict [("/lib/x.so", 1)])] = 2 :=
  ⟨by decide,
   C1_count_per_library_eq_processes_containing _ "/lib/libbar.so" (by decide),
   by decide⟩

/-- C4: the derived per-library process count never exceeds the number of
process entries in the aggregate. -/
theorem C4_count_le_number_of_processes (agg : Aggregate) (L : String)
    (hwf : wfInner agg = true) :
    getD0 (count_processes_per_library agg) L ≤ agg.length := by
  rw [count_getD0_eq_countP agg L hwf]
  exact List.countP_le_length _

/-- Witness for C4 at a concrete two-process aggregate. -/
theorem C4_count_le_number_of_processes_witness :
    wfInner [("p1", PLValue.dict [("/lib/a.so", 5)]),
             ("p2", PLValue.dict [("/lib/a.so", 1)])] = true ∧
      getD0 (count_processes_per_library
          [("p1", PLValue.dict [("/lib/a.so", 5)]),
           ("p2", PLValue.dict [("/lib/a.so", 1)])]) "/lib/a.so"
        ≤ ([("p1", PLValue.dict [("/lib/a.so", 5)]),
            ("p2", PLValue.dict [("/lib/a.so", 1)])] : Aggregate).length :=
  ⟨by decide, C4_count_le_number_of_processes _ "/lib/a.so" (by decide)⟩

/-- C7: the derivation does not mutate its input (the post-call state of
the argument is the argument), repeated invocation on the same input
yields identical output, and the result is order-independent: on a
permutation of a well-formed aggregate every library reads the same
count. -/
theorem C7_derivation_idempotent_pure (agg : Aggregate) :
    (count_processes_per_library_call agg).2 = agg ∧
    (count_processes_per_library_call
        ((count_processes_per_library_call agg).2)).1
      = (count_processes_per_library_call agg).1 ∧
    ∀ agg2 : Aggregate, agg.Perm agg2 → wfInner agg = true →
      ∀ L, getD0 (count_processes_per_library agg2) L
            = getD0 (count_processes_per_library agg) L := by
  refine ⟨rfl, rfl, fun agg2 hperm hwf L => ?_⟩
  have hwf2 : wfInner agg2 = true := by
    unfold wfInner at hwf ⊢
    rw [← all_of_perm hperm]
    exact hwf
  rw [count_getD0_eq_countP agg L hwf, count_getD0_eq_countP agg2 L hwf2,
    (hperm.countP_eq _).symm]

/-- Witness for C7 on a two-entry aggregate and its transposition. -/
theorem C7_derivation_idempotent_pure_witness :
    (count_processes_per_library_call
        [("p1", PLValue.dict [("/lib/a.so", 1)]), ("p2", PLValue.nonDict)]).2
      = [("p1", PLValue.dict [("/lib/a.so", 1)]), ("p2", PLValue.nonDict)] ∧
    getD0 (count_processes_per_library
        [("p2", PLValue.nonDict), ("p1", PLValue.dict [("/lib/a.so", 1)])])
        "/lib/a.so"
      = getD0 (count_processes_per_library
          [("p1", PLValue.dict [("/lib/a.so", 1)]), ("p2", PLValue.nonDict)])
          "/lib/a.so" :=
  ⟨(C7_derivation_idempotent_pure _).1,
   (C7_derivation_idempotent_pure
      [("p1", PLValue.dict [("/lib/a.so", 1)]), ("p2", PLValue.nonDict)]).2.2
     [("p2", PLValue.nonDict), ("p1", PLValue.dict [("/lib/a.so", 1)])]
     (List.Perm.swap _ _ _) (by decide) "/lib/a.so"⟩

/-- C8: an aggregate entry whose value is not a dict is skipped by
`count_processes_per_library` and contributes nothing: deleting it from
the input leaves the output unchanged, and the remaining (dict-valued)
entries are processed exactly as without it. -/
theorem C8_nondict_entry_skipped (pre : Aggregate) (p : String)
    (post : Aggregate) :
    count_processes_per_library (pre ++ (p, PLValue.nonDict) :: post)
      = count_processes_per_library (pre ++ post) := by
  unfold count_processes_per_library
  rw [List.foldl_append, List.foldl_append, List.foldl_cons]

theorem lookupA_append_of_none {β : Type} {l1 : List (String × β)}
    (l2 : List (String × β)) {k : String} (h : lookupA l1 k = none) :
    lookupA (l1 ++ l2) k = lookupA l2 k := by
  induction l1 with
  | nil => rfl
  | cons e rest ih =>
      simp only [lookupA, List.cons_append] at h ⊢
      by_cases he : e.1 = k
      · rw [if_pos he] at h
        exact absurd h (by simp)
      · rw [if_neg he] at h ⊢
        exact ih h

theorem lookupA_append_of_some {β : Type} {l1 : List (String × β)}
    (l2 : List (String × β)) {k : String} {v : β}
    (h : lookupA l1 k = some v) :
    lookupA (l1 ++ l2) k = some v := by
  induction l1 with
  | nil => exact absurd h (by simp [lookupA])
  | cons e rest ih =>
      simp only [lookupA, List.cons_append] at h ⊢
      by_cases he : e.1 = k
      · rw [if_pos he] at h ⊢
        exact h
      · rw [if_neg he] at h ⊢
        exact ih h

theorem lookupA_updateAt_self (agg : ProcAgg) (path : String)
    (f : List (String × Nat) → List (String × Nat)) :
    lookupA (updateAt agg path f) path = Option.map f (lookupA agg path) := by
  induction agg with
  | nil => rfl
  | cons e rest ih =>
      by_cases he : e.1 = path
      · simp [updateAt, lookupA, he]
      · simp [updateAt, lookupA, he, ih]

theorem lookupA_updateAt_ne (agg : ProcAgg) (path p : String)
    (f : List (String × Nat) → List (String × Nat)) (h : p ≠ path) :
    lookupA (updateAt agg path f) p = lookupA agg p := by
  induction agg with
  | nil => rfl
  | cons e rest ih =>
      by_cases he : e.1 = path
      · have hep : ¬ e.1 = p := fun hh => h (hh ▸ he)
        simp only [updateAt, if_pos he, lookupA]
        rw [if_neg hep, if_neg hep]
      · by_cases hep : e.1 = p
        · simp only [updateAt, if_neg he, lookupA]
          rw [if_pos hep, if_pos hep]
        · simp only [updateAt, if_neg he, lookupA]
          rw [if_neg hep, if_neg hep]
          exact ih

theorem process_maps_entry_of_seven (path : String) (parts : List String)
    (agg : ProcAgg) (h7 : parts.length = 7) :
    process_maps_entry path parts agg
      = if (pyIn "/lib/" (parts.getD 5 "")
              && pyIn "(deleted)" (parts.getD 6 "")) = true then
          updateAt (if containsKey agg path then agg else agg ++ [(path, [])])
            path (fun d => incr d (parts.getD 5 ""))
        else agg := by
  unfold process_maps_entry
  rw [if_neg (fun hh => hh h7)]

/-- C2: for a 7-field line, the aggregate count for the owning process and
the path field is incremented by exactly 1 (reading 0 when unseen) iff the
path field contains `/lib/` and the annotation field contains `(deleted)`,
with every other nested count unchanged; for any other 7-field line the
aggregate is returned untouched. -/
theorem C2_seven_field_classification (path : String) (parts : List String)
    (agg : ProcAgg) (h7 : parts.length = 7) :
    ((pyIn "/lib/" (parts.getD 5 "")
        && pyIn "(deleted)" (parts.getD 6 "")) = true →
      procLibCount (process_maps_entry path parts agg) path (parts.getD 5 "")
          = procLibCount agg path (parts.getD 5 "") + 1 ∧
        ∀ p l, ¬(p = path ∧ l = parts.getD 5 "") →
          procLibCount (process_maps_entry path parts agg) p l
            = procLibCount agg p l) ∧
    ((pyIn "/lib/" (parts.getD 5 "")
        && pyIn "(deleted)" (parts.getD 6 "")) = false →
      process_maps_entry path parts agg = agg) := by
  rw [process_maps_entry_of_seven path parts agg h7]
  constructor
  · intro hcond
    rw [if_pos hcond]
    by_cases hck : containsKey agg path = true
    · have hck' : (lookupA agg path).isSome = true := hck
      obtain ⟨d, hd⟩ := Option.isSome_iff_exists.mp hck'
      rw [if_pos hck]
      have hupd := lookupA_updateAt_self agg path
        (fun d => incr d (parts.getD 5 ""))
      rw [hd] at hupd
      simp only [Option.map_some'] at hupd
      constructor
      · simp only [procLibCount, hupd, hd, getD0_incr_self]
      · intro p l hpl
        by_cases hp : p = path
        · have hl : l ≠ parts.getD 5 "" := fun hh => hpl ⟨hp, hh⟩
          subst hp
          simp only [procLibCount, hupd, hd]
          exact getD0_incr_ne d _ l hl
        · simp only [procLibCount, lookupA_updateAt_ne agg path p _ hp]
    · have hnone : lookupA agg path = none := by
        rw [Bool.not_eq_true] at hck
        have : (lookupA agg path).isSome = false := hck
        exact Option.not_isSome_iff_eq_none.mp (by simp [this])
      rw [if_neg hck]
      have hone : lookupA (agg ++ [(path, [])]) path
          = some ([] : List (String × Nat)) := by
        rw [lookupA_append_of_none _ hnone]
        simp [lookupA]
      have hupd := lookupA_updateAt_self (agg ++ [(path, [])]) path
        (fun d => incr d (parts.getD 5 ""))
      rw [hone] at hupd
      simp only [Option.map_some'] at hupd
      constructor
      · simp only [procLibCount, hupd, hnone, incr, getD0, lookupA]
        simp
      · intro p l hpl
        by_cases hp : p = path
        · have hl : l ≠ parts.getD 5 "" := fun hh => hpl ⟨hp, hh⟩
          subst hp
          simp only [procLibCount, hupd, hnone, incr, getD0, lookupA]
          rw [if_neg (fun hh => hl hh.symm)]
          rfl
        · rw [procLibCount, lookupA_updateAt_ne _ path p _ hp]
          cases hl : lookupA agg p with
          | none =>
              rw [lookupA_append_of_none _ hl]
              simp only [procLibCount, hl, lookupA]
              rw [if_neg (fun hh => hp hh.symm)]
          | some d2 =>
              rw [lookupA_append_of_some _ hl]
              simp only [procLibCount, hl]
  · intro hcond
    rw [if_neg (by rw [hcond]; exact fun hh => Bool.false_ne_true hh)]

/-- Witness for C2: a deleted `/lib/` line for a fresh process raises its
nested count from 0 to 1. -/
theorem C2_seven_field_classification_witness :
    procLibCount
        (process_maps_entry "/proc/101/maps"
          ["7f00-7f21", "r-xp", "00000000", "08:01", "131",
           "/lib/libbar.so", "(deleted)"] [])
        "/proc/101/maps" "/lib/libbar.so"
      = procLibCount [] "/proc/101/maps" "/lib/libbar.so" + 1 :=
  ((C2_seven_field_classification "/proc/101/maps"
      ["7f00-7f21", "r-xp", "00000000", "08:01", "131",
       "/lib/libbar.so", "(deleted)"] [] (by decide)).1 (by decide)).1

/-- C6: a line whose whitespace-split field count is not 7 causes no
mutation at all: the aggregate is returned unchanged (and the function is
total, so no error is raised). -/
theorem C6_wrong_field_count_no_mutation (path : String)
    (parts : List String) (agg : ProcAgg) (h : parts.length ≠ 7) :
    process_maps_entry path parts agg = agg := by
  unfold process_maps_entry
  rw [if_pos h]

/-- Witness for C6: a one-field line leaves a non-empty aggregate intact. -/
theorem C6_wrong_field_count_no_mutation_witness :
    process_maps_entry "/proc/101/maps" ["[heap]"]
        [("/proc/101/maps", [("/lib/libbar.so", 1)])]
      = [("/proc/101/maps", [("/lib/libbar.so", 1)])] :=
  C6_wrong_field_count_no_mutation "/proc/101/maps" ["[heap]"]
    [("/proc/101/maps", [("/lib/libbar.so", 1)])] (by decide)

/-- C10: the library-directory marker is the literal substring `/lib/`, so
a 7-field deleted mapping whose path lacks that substring mutates nothing;
in particular `/lib64/libc.so.6` and `/usr/lib64/libm.so` do not contain
`/lib/` and deleted libraries there are never counted. -/
theorem C10_lib64_paths_never_counted :
    (∀ (path : String) (parts : List String) (agg : ProcAgg),
        parts.length = 7 → pyIn "/lib/" (parts.getD 5 "") = false →
        process_maps_entry path parts agg = agg) ∧
      pyIn "/lib/" "/lib64/libc.so.6" = false ∧
      pyIn "/lib/" "/usr/lib64/libm.so" = false := by
  refine ⟨fun path parts agg h7 hlib => ?_, by decide, by decide⟩
  rw [process_maps_entry_of_seven path parts agg h7]
  rw [if_neg (by rw [hlib, Bool.false_and]; exact fun hh => Bool.false_ne_true hh)]

/-- Witness for C10: a deleted mapping of `/lib64/libc.so.6` leaves the
empty aggregate empty. -/
theorem C10_lib64_paths_never_counted_witness :
    process_maps_entry "/proc/101/maps"
        ["7f00-7f21", "r-xp", "00000000", "08:01", "131",
         "/lib64/libc.so.6", "(deleted)"] [] = [] :=
  C10_lib64_paths_never_counted.1 "/proc/101/maps"
    ["7f00-7f21", "r-xp", "00000000", "08:01", "131",
     "/lib64/libc.so.6", "(deleted)"] [] (by decide) (by decide)

theorem scanFrom_append (l1 l2 : List (String × OpenResult)) (agg : ProcAgg) :
    scanFrom (l1 ++ l2) agg
      = match scanFrom l1 agg with
        | Outcome.done a => scanFrom l2 a
        | Outcome.exited m => Outcome.exited m
        | Outcome.raised m => Outcome.raised m := by
  induction l1 generalizing agg with
  | nil => rfl
  | cons e rest ih =>
      obtain ⟨path, r⟩ := e
      cases r with
      | openError en =>
          by_cases he : en ≠ ENOENT
          · simp [scanFrom, he]
          · simp [scanFrom, he, ih]
      | opened lines =>
          simp only [List.cons_append, scanFrom]
          cases hr : readMapsLines path lines agg with
          | done a2 => exact ih a2
          | exited m => rfl
          | raised m => rfl

/-- C3: per enumerated maps file, an open failure with errno ENOENT is
swallowed — the scan result is as if the entry were absent — while an open
failure with any other errno makes the run exit with
`Failed to open file: <path>` (and hence produce no metrics), provided the
entries before it scanned cleanly. -/
theorem C3_open_error_policy :
    (∀ (pre : List (String × OpenResult)) (path : String)
        (post : List (String × OpenResult)),
        scan_all_processes (pre ++ (path, OpenResult.openError ENOENT) :: post)
          = scan_all_processes (pre ++ post)) ∧
    (∀ (pre : List (String × OpenResult)) (path : String) (e : Nat)
        (post : List (String × OpenResult)) (agg : ProcAgg),
        e ≠ ENOENT → scan_all_processes pre = Outcome.done agg →
        main_run (pre ++ (path, OpenResult.openError e) :: post)
          = Outcome.exited ("Failed to open file: " ++ path)) := by
  constructor
  · intro pre path post
    unfold scan_all_processes
    rw [scanFrom_append, scanFrom_append]
    cases scanFrom pre [] with
    | done a => simp [scanFrom]
    | exited m => rfl
    | raised m => rfl
  · intro pre path e post agg he hpre
    unfold scan_all_processes at hpre
    unfold main_run scan_all_processes
    rw [scanFrom_append, hpre]
    simp [scanFrom, he]

/-- Witness for C3: a vanished maps file (ENOENT) is skipped; a permission
failure (EACCES = 13) aborts the run with the fatal message. -/
theorem C3_open_error_policy_witness :
    scan_all_processes [("/proc/999/maps", OpenResult.openError ENOENT)]
        = scan_all_processes [] ∧
      main_run [("/proc/500/maps", OpenResult.openError 13)]
        = Outcome.exited ("Failed to open file: " ++ "/proc/500/maps") :=
  ⟨C3_open_error_policy.1 [] "/proc/999/maps" [],
   C3_open_error_policy.2 [] "/proc/500/maps" 13 [] [] (by decide) rfl⟩

theorem readMapsLines_reaches_undecodable (path : String) (gs : List String)
    (detail : String) (rest : List Line) (agg : ProcAgg) :
    readMapsLines path (gs.map Line.ok ++ Line.undecodable detail :: rest) agg
      = Outcome.raised ("UnicodeDecodeError: " ++ detail) := by
  induction gs generalizing agg with
  | nil => rfl
  | cons g gs ih =>
      simp only [List.map_cons, List.cons_append, readMapsLines]
      exact ih _

/-- C9 counterexample to the claim as stated: on a run whose only process
has one undecodable mapping line, the program does abort fatally — via the
propagating `UnicodeDecodeError` — but the abort is not the
`sys.exit` path-naming abort: the user-visible exception message does not
contain the offending path `/proc/123/maps` anywhere. -/
theorem C9_counterexample_message_lacks_path :
    main_run [("/proc/123/maps", OpenResult.opened
        [Line.undecodable
          "utf-8 codec cannot decode byte 0x80 in position 0: invalid start byte"])]
      = Outcome.raised
          ("UnicodeDecodeError: " ++
            "utf-8 codec cannot decode byte 0x80 in position 0: invalid start byte") ∧
      pyIn "/proc/123/maps"
          ("UnicodeDecodeError: " ++
            "utf-8 codec cannot decode byte 0x80 in position 0: invalid start byte")
        = false ∧
      main_run [("/proc/123/maps", OpenResult.opened
          [Line.undecodable
            "utf-8 codec cannot decode byte 0x80 in position 0: invalid start byte"])]
        ≠ Outcome.exited ("Failed to open file: " ++ "/proc/123/maps") :=
  ⟨rfl, by decide, by decide⟩

/-- C9 amended: a mapping line that cannot be decoded is never skipped:
as soon as the read loop reaches it the whole run ends with the
propagating `UnicodeDecodeError` (non-zero status, no metrics document),
whose message is the decode detail — it does not name the offending
path. -/
theorem C9_amended_decode_failure_fatal (pre : List (String × OpenResult))
    (path : String) (gs : List String) (detail : String) (rest : List Line)
    (post : List (String × OpenResult)) (agg : ProcAgg)
    (hpre : scan_all_processes pre = Outcome.done agg) :
    main_run (pre ++ (path, OpenResult.opened
        (gs.map Line.ok ++ Line.undecodable detail :: rest)) :: post)
      = Outcome.raised ("UnicodeDecodeError: " ++ detail) := by
  unfold scan_all_processes at hpre
  unfold main_run scan_all_processes
  rw [scanFrom_append, hpre]
  simp only [scanFrom, readMapsLines_reaches_undecodable]

/-- Witness for C9 amended: one good process, then an undecodable line
after one good line. -/
theorem C9_amended_decode_failure_fatal_witness :
    main_run
        [("/proc/100/maps", OpenResult.opened [Line.ok "bad line"]),
         ("/proc/123/maps", OpenResult.opened
            ([Line.ok "another line"] ++
              [Line.undecodable "invalid start byte", Line.ok "after"]))]
      = Outcome.raised ("UnicodeDecodeError: " ++ "invalid start byte") :=
  C9_amended_decode_failure_fatal
    [("/proc/100/maps", OpenResult.opened [Line.ok "bad line"])]
    "/proc/123/maps" ["another line"] "invalid start byte" [Line.ok "after"]
    [] [] (by decide)

/-- The library path `lib` is a key of some process's per-library dict. -/
def innerHit (agg : ProcAgg) (lib : String) : Prop :=
  ∃ e ∈ agg, containsKey e.2 lib = true

/-- The split fields of a line classify as a deleted-library hit for
`lib`: 7 fields, the path field is `lib`, it contains `/lib/`, and the
annotation field contains `(deleted)`. -/
def classifiedDeletedLib (parts : List String) (lib : String) : Prop :=
  parts.length = 7 ∧ parts.getD 5 "" = lib ∧
    pyIn "/lib/" lib = true ∧ pyIn "(deleted)" (parts.getD 6 "") = true

theorem mem_updateAt {agg : ProcAgg} {path : String}
    {f : List (String × Nat) → List (String × Nat)}
    {e : String × List (String × Nat)} (h : e ∈ updateAt agg path f) :
    e ∈ agg ∨ ∃ d, (path, d) ∈ agg ∧ e = (path, f d) := by
  induction agg with
  | nil => cases h
  | cons e0 rest ih =>
      by_cases he : e0.1 = path
      · rw [updateAt, if_pos he] at h
        rcases List.mem_cons.mp h with h1 | h2
        · right
          refine ⟨e0.2, ?_, ?_⟩
          · have hpe : (path, e0.2) = e0 := by rw [← he]
            rw [hpe]
            exact List.mem_cons_self _ _
          · rw [h1, he]
        · left
          exact List.mem_cons_of_mem _ h2
      · rw [updateAt, if_neg he] at h
        rcases List.mem_cons.mp h with h1 | h2
        · left
          exact h1 ▸ List.mem_cons_self _ _
        · rcases ih h2 with h3 | ⟨d, hd, he'⟩
          · exact Or.inl (List.mem_cons_of_mem _ h3)
          · exact Or.inr ⟨d, List.mem_cons_of_mem _ hd, he'⟩

theorem containsKey_incr {d : List (String × Nat)} {k l : String}
    (h : containsKey (incr d k) l = true) :
    containsKey d l = true ∨ l = k := by
  induction d with
  | nil =>
      by_cases hk : k = l
      · exact Or.inr hk.symm
      · exfalso
        simp only [incr, containsKey, lookupA] at h
        rw [if_neg hk] at h
        simp at h
  | cons e rest ih =>
      by_cases he : e.1 = k
      · simp only [incr, if_pos he, containsKey, lookupA] at h ⊢
        by_cases hel : e.1 = l
        · rw [if_pos hel]
          exact Or.inl rfl
        · rw [if_neg hel] at h ⊢
          exact Or.inl h
      · simp only [incr, if_neg he, containsKey, lookupA] at h ⊢
        by_cases hel : e.1 = l
        · rw [if_pos hel] at h ⊢
          exact Or.inl h
        · rw [if_neg hel] at h ⊢
          exact ih h

theorem innerHit_process_maps_entry {path : String} {parts : List String}
    {agg : ProcAgg} {lib : String}
    (h : innerHit (process_maps_entry path parts agg) lib) :
    innerHit agg lib ∨ classifiedDeletedLib parts lib := by
  by_cases h7 : parts.length = 7
  · rw [process_maps_entry_of_seven path parts agg h7] at h
    cases hcond : (pyIn "/lib/" (parts.getD 5 "")
        && pyIn "(deleted)" (parts.getD 6 "")) with
    | false =>
        rw [if_neg (by rw [hcond]; exact fun hh => Bool.false_ne_true hh)] at h
        exact Or.inl h
    | true =>
        rw [if_pos hcond] at h
        obtain ⟨e, hmem, hck⟩ := h
        have hsplit := Bool.and_eq_true_iff.mp hcond
        rcases mem_updateAt hmem with hm | ⟨d, hd, hed⟩
        · -- e is an untouched entry of agg1
          by_cases hckagg : containsKey agg path = true
          · rw [if_pos hckagg] at hm
            exact Or.inl ⟨e, hm, hck⟩
          · rw [if_neg hckagg] at hm
            rcases List.mem_append.mp hm with hm1 | hm2
            · exact Or.inl ⟨e, hm1, hck⟩
            · exfalso
              have he : e = (path, []) := by
                simpa using hm2
              rw [he] at hck
              simp [containsKey, lookupA] at hck
        · -- e is the updated entry: its dict is incr d (field 5)
          rw [hed] at hck
          rcases containsKey_incr hck with hck2 | hlib
          · by_cases hckagg : containsKey agg path = true
            · rw [if_pos hckagg] at hd
              exact Or.inl ⟨(path, d), hd, hck2⟩
            · rw [if_neg hckagg] at hd
              rcases List.mem_append.mp hd with hd1 | hd2
              · exact Or.inl ⟨(path, d), hd1, hck2⟩
              · exfalso
                have hdnil : d = [] := by
                  simpa using congrArg Prod.snd (by simpa using hd2 : (path, d) = (path, ([] : List (String × Nat))))
                rw [hdnil] at hck2
                simp [containsKey, lookupA] at hck2
          · right
            exact ⟨h7, hlib.symm, hlib ▸ hsplit.1, hsplit.2⟩
  · unfold process_maps_entry at h
    rw [if_pos h7] at h
    exact Or.inl h

theorem innerHit_readMapsLines {path : String} {lines : List Line}
    {agg agg2 : ProcAgg} {lib : String}
    (hrun : readMapsLines path lines agg = Outcome.done agg2)
    (hhit : innerHit agg2 lib) :
    innerHit agg lib ∨
      ∃ s, Line.ok s ∈ lines ∧ classifiedDeletedLib (pySplit s) lib := by
  induction lines generalizing agg with
  | nil =>
      rw [readMapsLines] at hrun
      cases hrun
      exact Or.inl hhit
  | cons l rest ih =>
      cases l with
      | ok s =>
          rw [readMapsLines] at hrun
          rcases ih hrun with hin | ⟨s', hmem, hcls⟩
          · rcases innerHit_process_maps_entry hin with ha | hc
            · exact Or.inl ha
            · exact Or.inr ⟨s, List.mem_cons_self _ _, hc⟩
          · exact Or.inr ⟨s', List.mem_cons_of_mem _ hmem, hcls⟩
      | undecodable detail =>
          rw [readMapsLines] at hrun
          cases hrun

theorem innerHit_scanFrom {procs : List (String × OpenResult)}
    {agg agg2 : ProcAgg} {lib : String}
    (hrun : scanFrom procs agg = Outcome.done agg2)
    (hhit : innerHit agg2 lib) :
    innerHit agg lib ∨
      ∃ path lines, (path, OpenResult.opened lines) ∈ procs ∧
        ∃ s, Line.ok s ∈ lines ∧ classifiedDeletedLib (pySplit s) lib := by
  induction procs generalizing agg with
  | nil =>
      rw [scanFrom] at hrun
      cases hrun
      exact Or.inl hhit
  | cons e rest ih =>
      obtain ⟨path, r⟩ := e
      cases r with
      | openError en =>
          rw [scanFrom] at hrun
          by_cases he : en ≠ ENOENT
          · rw [if_pos he] at hrun
            cases hrun
          · rw [if_neg he] at hrun
            rcases ih hrun with hin | ⟨p2, ls2, hmem, hs⟩
            · exact Or.inl hin
            · exact Or.inr ⟨p2, ls2, List.mem_cons_of_mem _ hmem, hs⟩
      | opened lines =>
          rw [scanFrom] at hrun
          cases hr : readMapsLines path lines agg with
          | done a2 =>
              rw [hr] at hrun
              rcases ih hrun with hin | ⟨p2, ls2, hmem, hs⟩
              · rcases innerHit_readMapsLines hr hin with ha | ⟨s, hsm, hcls⟩
                · exact Or.inl ha
                · exact Or.inr ⟨path, lines, List.mem_cons_self _ _,
                    s, hsm, hcls⟩
              · exact Or.inr ⟨p2, ls2, List.mem_cons_of_mem _ hmem, hs⟩
          | exited m =>
              rw [hr] at hrun
              cases hrun
          | raised m =>
              rw [hr] at hrun
              cases hrun

theorem containsKey_foldl_incr {d : List (String × Nat)}
    {acc : List (String × Nat)} {lib : String}
    (h : containsKey (d.foldl (fun a le => incr a le.1) acc) lib = true) :
    containsKey acc lib = true ∨ containsKey d lib = true := by
  induction d generalizing acc with
  | nil => exact Or.inl h
  | cons le rest ih =>
      rw [List.foldl_cons] at h
      rcases ih h with h1 | h2
      · rcases containsKey_incr h1 with h3 | h4
        · exact Or.inl h3
        · right
          simp only [containsKey, lookupA]
          rw [if_pos h4.symm]
          rfl
      · right
        simp only [containsKey, lookupA]
        by_cases hel : le.1 = lib
        · rw [if_pos hel]
          rfl
        · rw [if_neg hel]
          exact h2

theorem containsKey_count {agg : Aggregate} {acc : List (String × Nat)}
    {lib : String}
    (h : containsKey (agg.foldl
      (fun acc e =>
        match e.2 with
        | PLValue.dict d => d.foldl (fun a le => incr a le.1) acc
        | PLValue.nonDict => acc) acc) lib = true) :
    containsKey acc lib = true ∨ ∃ e ∈ agg, entryHits e lib = true := by
  induction agg generalizing acc with
  | nil => exact Or.inl h
  | cons e rest ih =>
      obtain ⟨p, v⟩ := e
      cases v with
      | dict d =>
          rw [List.foldl_cons] at h
          rcases ih h with h1 | ⟨e2, hm, hh⟩
          · rcases containsKey_foldl_incr h1 with h2 | h3
            · exact Or.inl h2
            · exact Or.inr ⟨(p, PLValue.dict d), List.mem_cons_self _ _, h3⟩
          · exact Or.inr ⟨e2, List.mem_cons_of_mem _ hm, hh⟩
      | nonDict =>
          rw [List.foldl_cons] at h
          rcases ih h with h1 | ⟨e2, hm, hh⟩
          · exact Or.inl h1
          · exact Or.inr ⟨e2, List.mem_cons_of_mem _ hm, hh⟩

theorem innerHit_of_count_key {agg : ProcAgg} {lib : String}
    (h : containsKey (count_processes_per_library (toLoose agg)) lib = true) :
    innerHit agg lib := by
  unfold count_processes_per_library at h
  rcases containsKey_count h with h1 | ⟨e, hm, hh⟩
  · exfalso
    simp [containsKey, lookupA] at h1
  · obtain ⟨e0, hm0, heq⟩ := List.mem_map.mp hm
    refine ⟨e0, hm0, ?_⟩
    rw [← heq] at hh
    simpa [entryHits] using hh

/-- C5: a library path is a key of the scanned per-process aggregate or of
the derived per-library counts only if some decoded line of some opened
maps file classified as a deleted-library hit for it: 7 fields, the path
field equal to the library, containing `/lib/`, with `(deleted)` in the
annotation field.  Merely mapped libraries never appear. -/
theorem C5_keys_require_deleted_classification
    (procs : List (String × OpenResult)) (agg : ProcAgg) (lib : String)
    (hscan : scan_all_processes procs = Outcome.done agg)
    (hhit : innerHit agg lib ∨
      containsKey (count_processes_per_library (toLoose agg)) lib = true) :
    ∃ path lines, (path, OpenResult.opened lines) ∈ procs ∧
      ∃ s, Line.ok s ∈ lines ∧ classifiedDeletedLib (pySplit s) lib := by
  have hhit' : innerHit agg lib := by
    rcases hhit with h | h
    · exact h
    · exact innerHit_of_count_key h
  unfold scan_all_processes at hscan
  rcases innerHit_scanFrom hscan hhit' with hempty | hfound
  · exfalso
    obtain ⟨e, hm, _⟩ := hempty
    exact (List.not_mem_nil e) hm
  · exact hfound

/-- Witness for C5: on the spec's Scenario 1 run, the classified source
line for the reported library exists among the opened lines. -/
theorem C5_keys_require_deleted_classification_witness :
    ∃ path lines,
      (path, OpenResult.opened lines) ∈
        [("/proc/101/maps", OpenResult.opened
          [Line.ok "7f0000000000-7f0000021000 r-xp 00000000 08:01 131 /lib/x86_64-linux-gnu/libfoo.so.1 (deleted)"])] ∧
      ∃ s, Line.ok s ∈ lines ∧
        classifiedDeletedLib (pySplit s) "/lib/x86_64-linux-gnu/libfoo.so.1" :=
  C5_keys_require_deleted_classification
    [("/proc/101/maps", OpenResult.opened
      [Line.ok "7f0000000000-7f0000021000 r-xp 00000000 08:01 131 /lib/x86_64-linux-gnu/libfoo.so.1 (deleted)"])]
    [("/proc/101/maps", [("/lib/x86_64-linux-gnu/libfoo.so.1", 1)])]
    "/lib/x86_64-linux-gnu/libfoo.so.1"
    (by decide)
    (Or.inr (by decide))

end DeletedLibraries
